import Mathlib

/-!
Verification of the helpa templated-component rendering engine
(pkg/component/component.go, pkg/preprocess).

Strings are modelled as `List Char` (the source operates on ASCII byte
strings; one byte corresponds to one character for every input appearing in
these claims). Go library functions used by the source (`strings.Split`,
`strings.Replace`, `strings.TrimLeft`, `strings.TrimSpace`, the two regexen
of `TrimTemplate`) are embedded here with their documented semantics.
-/

namespace Helpa

abbrev Str := List Char

/-- Character class of Go's regexp `\s` (RE2 Perl class): `[\t\n\f\r ]`.
Note this does NOT include the vertical tab `\x0b`. -/
def reWSb (c : Char) : Bool :=
  c = '\t' || c = '\n' || c = '\x0c' || c = '\r' || c = ' '

/-- Character class of Go's `unicode.IsSpace` restricted to Latin-1
(`'\t' '\n' '\v' '\f' '\r' ' ' U+0085 U+00A0`); used by `strings.TrimSpace`. -/
def spaceU (c : Char) : Bool :=
  c = '\t' || c = '\n' || c = '\x0b' || c = '\x0c' || c = '\r' || c = ' '
    || c = '\x85' || c = '\xa0'

/-- `strings.Split(s, "\n")` (separator is a single character, so the generic
split specializes to this structural recursion). -/
def splitNl : Str → List Str
  | [] => [[]]
  | c :: cs =>
    match splitNl cs with
    | [] => [[]]
    | l :: ls => if c = '\n' then [] :: l :: ls else (c :: l) :: ls

/-- `strings.Join(lines, "\n")`. -/
def joinNl : List Str → Str
  | [] => []
  | [l] => l
  | l :: ls => l ++ '\n' :: joinNl ls

/-- A line is blank for the regexp `\s*` class. -/
def isBlankRe (l : Str) : Bool := l.all reWSb

/-- `strings.TrimSpace(line) == ""`: every character is Unicode whitespace. -/
def isBlankU (l : Str) : Bool := l.all spaceU

/-- Remove the leading run of complete blank lines.  This is the replacement
of the anchored regex match `^(?:\s*\n)+` by `""`: the (greedy, leftmost)
match of that pattern is exactly the longest prefix consisting of
`\s`-only lines each terminated by `'\n'`; the final line of the string has
no terminating `'\n'` and hence is never part of the match. -/
def dropLeadB : List Str → List Str
  | [] => []
  | [l] => [l]
  | l :: ls => if isBlankRe l then dropLeadB ls else l :: ls

/-- Remove the trailing run of blank lines.  This is the replacement of the
regex match `(?:\n\s*)+$` by `""`: its leftmost match starts at the first
`'\n'` after which every character is `\s`, i.e. it removes the longest
suffix of blank lines (the first line has no preceding `'\n'` and is never
removed). -/
def dropTrailB (ls : List Str) : List Str := (dropLeadB ls.reverse).reverse

def trimLines (ls : List Str) : List Str := dropTrailB (dropLeadB ls)

/-- `preprocess.TrimTemplate`: apply the two regex passes
`^(?:\s*\n)+` and `(?:\n\s*)+$` (in that order), each replaced by `""`.
(The `regexp.Compile` error path is dead for these two constant patterns,
so the function is total.) -/
def TrimTemplate (s : Str) : Str := joinNl (trimLines (splitNl s))

/-- Leading-space count, `len(line) - len(strings.TrimLeft(line, " "))`. -/
def leadSp (l : Str) : Nat := (l.takeWhile (fun c => c = ' ')).length

/-- One iteration of the `smallestIndent` loop of `preprocess.Unindent`:
skip lines with `strings.TrimSpace(line) == ""`, otherwise keep the smaller
of the accumulator and `len(line) - len(strings.TrimLeft(line, " "))`, with
`-1` as the "no non-blank line seen" sentinel. -/
def indentStep (acc : Int) (line : Str) : Int :=
  if isBlankU line then acc
  else
    let cur : Int := (line.length : Int) - ((line.dropWhile (fun c => c = ' ')).length : Int)
    if acc = -1 || cur < acc then cur else acc

/-- The `smallestIndent` loop of `preprocess.Unindent`. -/
def smallestIndentGo (lines : List Str) : Int := lines.foldl indentStep (-1)

/-- `preprocess.Unindent`: compute `smallestIndent`; if `-1` return the input
unchanged; otherwise replace every line with `len(line) >= smallestIndent`
by `line[smallestIndent:]`, leaving shorter lines untouched, and rejoin. -/
def Unindent (s : Str) : Str :=
  let lines := splitNl s
  let m := smallestIndentGo lines
  if m = -1 then s
  else joinNl (lines.map (fun l => if m ≤ (l.length : Int) then l.drop m.toNat else l))

/-- `component.preprocessTemplate`: `TrimTemplate` then `Unindent`
(the error return of `TrimTemplate` is dead, see above). -/
def preprocessTemplate (s : Str) : Str := Unindent (TrimTemplate s)

/-- Minimum of a list of naturals. -/
def minNat? : List Nat → Option Nat
  | [] => none
  | n :: ns =>
    match minNat? ns with
    | none => some n
    | some m => some (min n m)

/-- Spec-level reformulation of `Unindent` (used to state the amended C7):
minimum leading-space count over the non-blank lines; strip that many
characters from every line at least that long; shorter lines unchanged. -/
def minIndent? (lines : List Str) : Option Nat :=
  minNat? ((lines.filter (fun l => !(isBlankU l))).map leadSp)

def unindentLines (ls : List Str) : List Str :=
  match minIndent? ls with
  | none => ls
  | some m => ls.map (fun l => if m ≤ l.length then l.drop m else l)

def unindentSpec (s : Str) : Str := joinNl (unindentLines (splitNl s))

/-- The behaviour claim C7 asserts (written from the claim's words, for the
counterexample): strip the minimum from EVERY line, clipped at line length,
so a line shorter than the minimum loses all its characters. -/
def unindentClaimed (s : Str) : Str :=
  match minIndent? (splitNl s) with
  | none => s
  | some m => joinNl ((splitNl s).map (fun l => l.drop m))

/-- `strings.Replace(s, old, new, -1)`, fuelled (any fuel at least
`s.length` gives the true value): scan left to right and replace each
non-overlapping occurrence of `old`; the produced text is NOT rescanned. -/
def replAux (t r : Str) : Nat → Str → Str
  | 0, s => s
  | fuel + 1, s =>
    match s with
    | [] => []
    | c :: cs =>
      if t.isPrefixOf s ∧ t ≠ [] then r ++ replAux t r fuel (s.drop t.length)
      else c :: replAux t r fuel cs

def goReplaceAll (t r s : Str) : Str := replAux t r s.length s

/-- `strings.Split(s, sep)` for non-empty `sep`, fuelled: split around every
non-overlapping, leftmost occurrence of `sep`.  (For empty `sep` Go explodes
into characters; the pipeline always passes a non-empty separator because
`doPrepareComponentInput` replaces `""` by `"---"`.) -/
def splitAuxF (sep : Str) : Nat → Str → List Str
  | 0, s => [s]
  | fuel + 1, s =>
    match s with
    | [] => [[]]
    | c :: cs =>
      if sep.isPrefixOf s ∧ sep ≠ [] then [] :: splitAuxF sep fuel (s.drop sep.length)
      else
        match splitAuxF sep fuel cs with
        | [] => [[c]]
        | p :: ps => (c :: p) :: ps

def goSplit (sep s : Str) : List Str := splitAuxF sep s.length s

/-- Default multi-document separator, `doPrepareComponentInput`:
`if options.MultiDocSeparator == "" { options.MultiDocSeparator = "---" }`. -/
def defaultSep (s : Str) : Str := if s = [] then "---".toList else s

/-- The separator line the documentation of `Options.MultiDocSeparator`
describes ("lines that contain this separator and nothing else"): trim a
line at both ends. -/
def trimWS (l : Str) : Str := ((l.dropWhile spaceU).reverse.dropWhile spaceU).reverse

/-- Document split as specified ("pure string split on lines equal to
`separator` (trimmed)"); written from the spec's words to compare with the
source's `strings.Split`. -/
def groupLines (sep : Str) : List Str → List (List Str)
  | [] => [[]]
  | l :: ls =>
    if trimWS l = sep then [] :: groupLines sep ls
    else
      match groupLines sep ls with
      | [] => [[l]]
      | g :: gs => (l :: g) :: gs

def lineSplitSpec (sep : Str) (s : Str) : List Str :=
  (groupLines sep (splitNl s)).map joinNl

/-- The missing-value sentinel of `text/template` under `missingkey=zero`. -/
def noValue : Str := "<no value>".toList

/-- Line 619 of component.go:
`content = strings.Replace(buf.String(), "<no value>", "", -1)`. -/
def scrubNoValue (raw : Str) : Str := goReplaceAll noValue [] raw

/-- Occurrence positions of `t` in `s` (indices `i` where `t` is a prefix of
`s.drop i`). -/
def occPositions (t s : Str) : List Nat :=
  (List.range (s.length + 1)).filter (fun i => t.isPrefixOf (s.drop i))

def occCount (t s : Str) : Nat := (occPositions t s).length

/-! ## Errors and pipeline results

Every `fmt.Errorf` site of component.go becomes one constructor carrying its
dynamic data. -/

inductive GoErr where
  /-- an opaque error produced by caller code (Setup, Unmarshal, ...) -/
  | user : Nat → GoErr
  /-- `"parse error in %q: %s"` -/
  | parseErrIn : Str → GoErr → GoErr
  /-- `"render error in %q: %s"` -/
  | renderErrIn : Str → GoErr → GoErr
  /-- `"found %v documents in the template, but there is %v instances to
  unmarshal the data to. ..."` (first argument: found documents, second:
  expected instances) -/
  | countMismatch : Nat → Nat → GoErr
  /-- `"failed rendering component %q: %v"` produced by the deferred
  `recover` guard -/
  | recovered : Str → GoErr → GoErr
  /-- `json: unknown field "<f>"` from the strict decoder -/
  | unknownField : Str → GoErr
  /-- a Go runtime error (e.g. index out of range) -/
  | runtimeErr : GoErr
  deriving DecidableEq, Repr

/-- Result of a caller-supplied stage (it can return a value, return an
error, or panic). -/
inductive StageRes (α : Type) where
  | ok : α → StageRes α
  | fail : GoErr → StageRes α
  | panics : GoErr → StageRes α
  deriving DecidableEq, Repr

/-! ## Strict decoding (claim C2)

Modelled from the spec: the decoder behind `unmarshall` is the external
`sigs.k8s.io/yaml` + `encoding/json` pair, not part of this repository;
component.go only configures it (`dec.DisallowUnknownFields()`).  The spec's
contract for it is "strict decode into typed value; reject unknown fields;
return error with field name".  A document is modelled as an ordered field
list, a target shape as its list of declared field names. -/

inductive JVal where
  | str : Str → JVal
  | num : Int → JVal
  | boolean : Bool → JVal
  | null : JVal
  deriving DecidableEq, Repr

abbrev JObj := List (Str × JVal)

/-- Modelled from the spec: `yaml.YAMLToJSON` converts the document between
notations; on the structured model the conversion is the identity (it can
fail only on malformed text, which the structured model rules out). -/
def yamlToJSONM (doc : JObj) : Except GoErr JObj := .ok doc

/-- Modelled from the spec: `json.Decoder.Decode` after
`DisallowUnknownFields()` — decoding fails at the first document field whose
name is not declared in the target shape, naming that field. -/
def decodeStrict (shape : List Str) (doc : JObj) : Except GoErr Unit :=
  match doc.find? (fun kv => !(shape.contains kv.1)) with
  | some kv => .error (.unknownField kv.1)
  | none => .ok ()

/-- `component.unmarshall`: YAML→JSON conversion, then strict decode with
unknown-field rejection. -/
def unmarshall (shape : List Str) (doc : JObj) : Except GoErr Unit :=
  match yamlToJSONM doc with
  | .error e => .error e
  | .ok j => decodeStrict shape j

/-! ## `doUnmarshalMulti` with an explicit cell store (claims C9, C1, C10)

Go's `instance := instances[index]` copies the blueprint value into a fresh
local and `options.Unmarshal(doc, &instance)` receives a pointer to that
local only.  To make the frame property non-vacuous the backing array is
modelled as a store of cells: the caller's blueprint slice occupies cells
`0 .. n-1` and every loop iteration allocates a fresh cell (at the end of
the store) for its local copy; the decoder writes only through the cell it
is handed.  `calls` counts the `options.Unmarshal` invocations. -/

structure UMState (α : Type) where
  mem : List α
  calls : Nat
  deriving Repr, DecidableEq

inductive UMOut (α : Type) where
  /-- normal return `(out, nil)` -/
  | ok : List α → UMOut α
  /-- return `(out, err)` with the partial `out` built so far -/
  | err : GoErr → List α → UMOut α
  /-- a Go runtime panic (index out of range when there are more documents
  than blueprint instances) -/
  | panicked : UMOut α
  deriving Repr, DecidableEq

/-- `component.doUnmarshalMulti`: for each document, copy the blueprint at
that position into a fresh cell, decode into the fresh cell, tag any decode
error with `"render error in %q"`, and append the decoded value to `out`. -/
def doUnmarshalMulti (name : Str) (um : Str → α → Except GoErr α) :
    List Str → Nat → List α → UMState α → UMState α × UMOut α
  | [], _, out, st => (st, .ok out)
  | doc :: rest, idx, out, st =>
    match st.mem.get? idx with
    | none => (st, .panicked)
    | some blueprint =>
      let fresh := st.mem.length
      let st1 : UMState α := ⟨st.mem ++ [blueprint], st.calls⟩
      match um doc blueprint with
      | .error e => (⟨st1.mem, st1.calls + 1⟩, .err (.renderErrIn name e) out)
      | .ok v =>
        doUnmarshalMulti name um rest (idx + 1) (out ++ [v]) ⟨st1.mem.set fresh v, st1.calls + 1⟩

/-! ## The render closures (claims C1, C5, C10)

`CreateComponentMulti`/`CreateComponent` build a closure; its body is
embedded here with the caller-supplied stages (`Setup`, the template
execution inside `doRender`) abstracted as `StageRes` outcomes — the claims
below do not depend on the context value, only on whether each stage
returned, failed, or panicked.  `BodyRes.panicked` carries the values the
named return parameters hold when the panic unwinds, which is what the
deferred `recover` guard hands back. -/

structure MultiComp (TType : Type) where
  name : Str
  panicOnError : Bool
  sep : Str
  instances : List TType
  setupRes : StageRes Unit
  renderRes : StageRes Str
  um : Str → TType → Except GoErr TType

inductive BodyRes (TType : Type) where
  | normal : List TType → List Str → Option GoErr → BodyRes TType
  | panicked : List TType → List Str → GoErr → BodyRes TType
  deriving Repr, DecidableEq

inductive RunRes (TType : Type) where
  /-- `Render` returned `(instances, contents, err)` -/
  | ret : List TType → List Str → Option GoErr → RunRes TType
  /-- an unrecovered panic aborted the call (panic-mode) -/
  | abort : GoErr → RunRes TType
  deriving Repr, DecidableEq

/-- Body of the `ComponentMulti.Render` closure (component.go lines
787-844), paired with the number of `Unmarshal` calls made. -/
def renderMultiBody (c : MultiComp TType) : BodyRes TType × Nat :=
  match c.setupRes with
  | .panics e => (.panicked [] [] e, 0)
  | .fail e =>
    if c.panicOnError then (.panicked [] [] e, 0) else (.normal [] [] (some e), 0)
  | .ok _ =>
    match c.renderRes with
    | .panics e => (.panicked [] [] e, 0)
    | .fail e =>
      if c.panicOnError then (.panicked [] [] e, 0) else (.normal [] [] (some e), 0)
    | .ok content =>
      let parts := goSplit c.sep content
      if c.instances.length ≠ parts.length then
        (.normal [] parts (some (.countMismatch parts.length c.instances.length)), 0)
      else
        match doUnmarshalMulti c.name c.um parts 0 [] ⟨c.instances, 0⟩ with
        | (st, .ok out) => (.normal out parts none, st.calls)
        | (st, .err e out) =>
          if c.panicOnError then (.panicked out parts e, st.calls)
          else (.normal out parts (some e), st.calls)
        | (st, .panicked) => (.panicked [] parts .runtimeErr, st.calls)

/-- `ComponentMulti.Render` including the deferred guard: when
`PanicOnError` is false a panic is recovered and re-expressed as
`"failed rendering component %q: %v"`; when it is true the panic
propagates (abort). -/
def renderMulti (c : MultiComp TType) : RunRes TType × Nat :=
  match renderMultiBody c with
  | (.normal a b e, k) => (.ret a b e, k)
  | (.panicked a b e, k) =>
    if c.panicOnError then (.abort e, k)
    else (.ret a b (some (.recovered c.name e)), k)

structure SingleComp (TType : Type) where
  name : Str
  panicOnError : Bool
  /-- the zero value of `TType` (initial value of the named return) -/
  zero : TType
  setupRes : StageRes Unit
  renderRes : StageRes Str
  /-- `options.Unmarshal(content, &out)` decoding into a fresh zero value:
  returns the value written and the error, if any -/
  um : Str → TType × Option GoErr

inductive BodyResS (TType : Type) where
  | normal : TType → Str → Option GoErr → BodyResS TType
  | panicked : TType → Str → GoErr → BodyResS TType
  deriving Repr, DecidableEq

inductive RunResS (TType : Type) where
  | ret : TType → Str → Option GoErr → RunResS TType
  | abort : GoErr → RunResS TType
  deriving Repr, DecidableEq

/-- Body of the `Component.Render` closure (component.go lines 720-758). -/
def renderSingleBody (c : SingleComp TType) : BodyResS TType :=
  match c.setupRes with
  | .panics e => .panicked c.zero [] e
  | .fail e =>
    if c.panicOnError then .panicked c.zero [] e else .normal c.zero [] (some e)
  | .ok _ =>
    match c.renderRes with
    | .panics e => .panicked c.zero [] e
    | .fail e =>
      if c.panicOnError then .panicked c.zero [] e else .normal c.zero [] (some e)
    | .ok content =>
      match c.um content with
      | (v, some e) =>
        if c.panicOnError then .panicked v content (.renderErrIn c.name e)
        else .normal v content (some (.renderErrIn c.name e))
      | (v, none) => .normal v content none

/-- `Component.Render` including the deferred guard. -/
def renderSingle (c : SingleComp TType) : RunResS TType :=
  match renderSingleBody c with
  | .normal v s e => .ret v s e
  | .panicked v s e =>
    if c.panicOnError then .abort e
    else .ret v s (some (.recovered c.name e))

/-! ## Escape / unescape filter (claim C3)

Modelled from the spec: the escape/unescape implementation exercised by
`TestComponentInlineEscape` is not among the provided sources, so it is
built from the spec's contract (section 4.3): `escape` replaces every
action opened with the escape marker `\x7b\x7b!` by a unique literal
placeholder `slot_0, slot_1, ...` and records `token -> action text with
the marker removed`; after rendering, `unescape` replaces every occurrence
of each token by its stored text.  A template is a sequence of literal
runs, ordinary actions `\x7b\x7b body \x7d\x7d` and escaped actions
`\x7b\x7b! body \x7d\x7d`, each action carrying the text between its
delimiters. -/

inductive Piece where
  | lit : Str → Piece
  | act : Str → Piece
  | esc : Str → Piece
  deriving DecidableEq, Repr

/-- `slot_<n>`: the unique placeholder for the n-th escaped action. -/
def slotTok (n : Nat) : Str := "slot_".toList ++ Nat.toDigits 10 n

/-- The escaped action `\x7b\x7b! body \x7d\x7d` with the escape marker
removed: `\x7b\x7b body \x7d\x7d`. -/
def stripEsc (b : Str) : Str := '{' :: '{' :: (b ++ ['}', '}'])

/-- `escape`: walk the template with a monotonically increasing slot
counter; each escaped action becomes a literal placeholder token and an
entry `token -> marker-stripped action text` in the slot map. -/
def escapeAux : Nat → List Piece → List Piece × List (Str × Str)
  | _, [] => ([], [])
  | n, Piece.esc b :: rest =>
    (Piece.lit (slotTok n) :: (escapeAux (n + 1) rest).1,
      (slotTok n, stripEsc b) :: (escapeAux (n + 1) rest).2)
  | n, Piece.lit s :: rest => (Piece.lit s :: (escapeAux n rest).1, (escapeAux n rest).2)
  | n, Piece.act b :: rest => (Piece.act b :: (escapeAux n rest).1, (escapeAux n rest).2)

def escapeT (T : List Piece) : List Piece × List (Str × Str) := escapeAux 0 T

/-- Template execution: literal runs are copied, ordinary actions are
evaluated by the engine (`ev` maps an action body to its output).  After
`escape` no `esc` piece remains; an `esc` piece handed directly to the
engine would be a parse error, modelled as producing nothing. -/
def renderT (ev : Str → Str) : List Piece → Str
  | [] => []
  | Piece.lit s :: rest => s ++ renderT ev rest
  | Piece.act b :: rest => ev b ++ renderT ev rest
  | Piece.esc _ :: rest => renderT ev rest

/-- The output the round-trip must reproduce (spec 4.3): escaped actions
verbatim with only the marker removed, ordinary actions evaluated. -/
def renderDirect (ev : Str → Str) : List Piece → Str
  | [] => []
  | Piece.lit s :: rest => s ++ renderDirect ev rest
  | Piece.act b :: rest => ev b ++ renderDirect ev rest
  | Piece.esc b :: rest => stripEsc b ++ renderDirect ev rest

/-- `unescape`: replace every occurrence of each placeholder token by its
stored action text, in slot order. -/
def unescape (slots : List (Str × Str)) (s : Str) : Str :=
  slots.foldl (fun acc tr => goReplaceAll tr.1 tr.2 acc) s

/-- Token freshness along the unescape chain (spec 4.3: "Tokens must not
collide with any literal substring already present"): each token occurs
exactly once in the text it is about to be replaced in. -/
def uniqueChain : List (Str × Str) → Str → Bool
  | [], _ => true
  | (t, r) :: rest, s => (occCount t s == 1) && uniqueChain rest (goReplaceAll t r s)

/-- Segment view used to prove the round trip: a rendered text is a
concatenation of plain segments and token segments. -/
abbrev Seg := Sum Str (Str × Str)

def segStr : List Seg → Str
  | [] => []
  | Sum.inl s :: rest => s ++ segStr rest
  | Sum.inr tr :: rest => tr.1 ++ segStr rest

def segRep : List Seg → Str
  | [] => []
  | Sum.inl s :: rest => s ++ segRep rest
  | Sum.inr tr :: rest => tr.2 ++ segRep rest

def segSlots : List Seg → List (Str × Str)
  | [] => []
  | Sum.inl _ :: rest => segSlots rest
  | Sum.inr tr :: rest => tr :: segSlots rest

/-- The segments of a template rendered after escaping. -/
def segsOfTemplate (ev : Str → Str) : Nat → List Piece → List Seg
  | _, [] => []
  | n, Piece.lit s :: rest => Sum.inl s :: segsOfTemplate ev n rest
  | n, Piece.act b :: rest => Sum.inl (ev b) :: segsOfTemplate ev n rest
  | n, Piece.esc b :: rest => Sum.inr (slotTok n, stripEsc b) :: segsOfTemplate ev (n + 1) rest

/-! ## Generic facts about the fuelled string operations -/

theorem replAux_nil (t r : Str) : ∀ f, replAux t r f [] = []
  | 0 => rfl
  | _ + 1 => rfl

theorem replAux_congr (t r : Str) :
    ∀ f₁ f₂ s, s.length ≤ f₁ → s.length ≤ f₂ → replAux t r f₁ s = replAux t r f₂ s := by
  intro f₁
  induction f₁ with
  | zero =>
    intro f₂ s h1 _
    have hs : s = [] := List.eq_nil_of_length_eq_zero (Nat.le_zero.mp h1)
    subst hs
    rw [replAux_nil, replAux_nil]
  | succ f ih =>
    intro f₂ s h1 h2
    cases s with
    | nil => rw [replAux_nil, replAux_nil]
    | cons c cs =>
      cases f₂ with
      | zero => simp at h2
      | succ g =>
        simp only [replAux]
        by_cases hp : t.isPrefixOf (c :: cs) ∧ t ≠ []
        · rw [if_pos hp, if_pos hp]
          have ht : 1 ≤ t.length := by
            cases t with
            | nil => exact absurd rfl hp.2
            | cons a as => simp
          have hd : ((c :: cs).drop t.length).length ≤ f := by
            simp only [List.length_drop, List.length_cons]
            simp only [List.length_cons] at h1
            omega
          have hd2 : ((c :: cs).drop t.length).length ≤ g := by
            simp only [List.length_drop, List.length_cons]
            simp only [List.length_cons] at h2
            omega
          rw [ih g _ hd hd2]
        · rw [if_neg hp, if_neg hp]
          simp only [List.length_cons] at h1 h2
          rw [ih g cs (by omega) (by omega)]

theorem goReplaceAll_nil (t r : Str) : goReplaceAll t r [] = [] := rfl

theorem goReplaceAll_pos {t : Str} (r : Str) {c : Char} {cs : Str}
    (h : t.isPrefixOf (c :: cs) ∧ t ≠ []) :
    goReplaceAll t r (c :: cs) = r ++ goReplaceAll t r ((c :: cs).drop t.length) := by
  have ht : 1 ≤ t.length := by
    cases t with
    | nil => exact absurd rfl h.2
    | cons a as => simp
  show replAux t r ((c :: cs).length) (c :: cs) = _
  simp only [List.length_cons, replAux]
  rw [if_pos h]
  congr 1
  apply replAux_congr
  · simp only [List.length_drop, List.length_cons]; omega
  · exact Nat.le_refl _

theorem goReplaceAll_neg {t : Str} (r : Str) {c : Char} {cs : Str}
    (h : ¬(t.isPrefixOf (c :: cs) ∧ t ≠ [])) :
    goReplaceAll t r (c :: cs) = c :: goReplaceAll t r cs := by
  show replAux t r ((c :: cs).length) (c :: cs) = _
  simp only [List.length_cons, replAux]
  rw [if_neg h]
  rfl

theorem splitAuxF_nil (sep : Str) : ∀ f, splitAuxF sep f [] = [[]]
  | 0 => rfl
  | _ + 1 => rfl

theorem splitAuxF_ne_nil (sep : Str) : ∀ f s, splitAuxF sep f s ≠ [] := by
  intro f
  induction f with
  | zero => intro s; simp [splitAuxF]
  | succ f ih =>
    intro s
    cases s with
    | nil => simp [splitAuxF]
    | cons c cs =>
      simp only [splitAuxF]
      by_cases hp : sep.isPrefixOf (c :: cs) ∧ sep ≠ []
      · rw [if_pos hp]; simp
      · rw [if_neg hp]
        cases hsp : splitAuxF sep f cs with
        | nil => simp
        | cons p ps => simp

theorem splitAuxF_congr (sep : Str) :
    ∀ f₁ f₂ s, s.length ≤ f₁ → s.length ≤ f₂ → splitAuxF sep f₁ s = splitAuxF sep f₂ s := by
  intro f₁
  induction f₁ with
  | zero =>
    intro f₂ s h1 _
    have hs : s = [] := List.eq_nil_of_length_eq_zero (Nat.le_zero.mp h1)
    subst hs
    rw [splitAuxF_nil, splitAuxF_nil]
  | succ f ih =>
    intro f₂ s h1 h2
    cases s with
    | nil => rw [splitAuxF_nil, splitAuxF_nil]
    | cons c cs =>
      cases f₂ with
      | zero => simp at h2
      | succ g =>
        simp only [splitAuxF]
        by_cases hp : sep.isPrefixOf (c :: cs) ∧ sep ≠ []
        · rw [if_pos hp, if_pos hp]
          have ht : 1 ≤ sep.length := by
            cases hsep : sep with
            | nil => exact absurd hsep hp.2
            | cons a as => simp
          have hd : ((c :: cs).drop sep.length).length ≤ f := by
            simp only [List.length_drop, List.length_cons]
            simp only [List.length_cons] at h1
            omega
          have hd2 : ((c :: cs).drop sep.length).length ≤ g := by
            simp only [List.length_drop, List.length_cons]
            simp only [List.length_cons] at h2
            omega
          rw [ih g _ hd hd2]
        · rw [if_neg hp, if_neg hp]
          simp only [List.length_cons] at h1 h2
          rw [ih g cs (by omega) (by omega)]

theorem goSplit_nil (sep : Str) : goSplit sep [] = [[]] := rfl

theorem goSplit_pos {sep : Str} {c : Char} {cs : Str}
    (h : sep.isPrefixOf (c :: cs) ∧ sep ≠ []) :
    goSplit sep (c :: cs) = [] :: goSplit sep ((c :: cs).drop sep.length) := by
  have ht : 1 ≤ sep.length := by
    cases hsep : sep with
    | nil => exact absurd hsep h.2
    | cons a as => simp
  show splitAuxF sep ((c :: cs).length) (c :: cs) = _
  simp only [List.length_cons, splitAuxF]
  rw [if_pos h]
  congr 1
  apply splitAuxF_congr
  · simp only [List.length_drop, List.length_cons]; omega
  · exact Nat.le_refl _

theorem goSplit_neg {sep : Str} {c : Char} {cs : Str}
    (h : ¬(sep.isPrefixOf (c :: cs) ∧ sep ≠ [])) :
    goSplit sep (c :: cs) =
      match goSplit sep cs with
      | [] => [[c]]
      | p :: ps => (c :: p) :: ps := by
  show splitAuxF sep ((c :: cs).length) (c :: cs) = _
  simp only [List.length_cons, splitAuxF]
  rw [if_neg h]
  rfl

/-- `strings.Replace(s, old, "", -1)` concatenates the parts of
`strings.Split(s, old)` (the documented Go equivalence). -/
theorem replAux_join_splitAuxF (t : Str) :
    ∀ f s, s.length ≤ f → replAux t [] f s = (splitAuxF t f s).flatten := by
  intro f
  induction f with
  | zero => intro s _; simp [replAux, splitAuxF]
  | succ f ih =>
    intro s h1
    cases s with
    | nil => simp [replAux, splitAuxF]
    | cons c cs =>
      simp only [replAux, splitAuxF]
      by_cases hp : t.isPrefixOf (c :: cs) ∧ t ≠ []
      · rw [if_pos hp, if_pos hp]
        have ht : 1 ≤ t.length := by
          cases t with
          | nil => exact absurd rfl hp.2
          | cons a as => simp
        have hd : ((c :: cs).drop t.length).length ≤ f := by
          simp only [List.length_drop, List.length_cons]
          simp only [List.length_cons] at h1
          omega
        rw [ih _ hd]
        simp
      · rw [if_neg hp, if_neg hp]
        simp only [List.length_cons] at h1
        rw [ih cs (by omega)]
        cases hsp : splitAuxF t f cs with
        | nil => exact absurd hsp (splitAuxF_ne_nil t f cs)
        | cons p ps => simp

theorem goReplaceAll_empty_join (t s : Str) :
    goReplaceAll t [] s = (goSplit t s).flatten :=
  replAux_join_splitAuxF t s.length s (Nat.le_refl _)

/-- A string without an occurrence of `t` is returned unchanged. -/
theorem goReplaceAll_of_not_infix {t : Str} (r : Str) :
    ∀ {s : Str}, ¬ t <:+: s → goReplaceAll t r s = s := by
  intro s
  induction s with
  | nil => intro _; rfl
  | cons c cs ih =>
    intro hni
    have hp : ¬(t.isPrefixOf (c :: cs) ∧ t ≠ []) := by
      intro ⟨h1, _⟩
      exact hni (List.IsPrefix.isInfix (List.isPrefixOf_iff_prefix.mp h1))
    rw [goReplaceAll_neg r hp]
    rw [ih (fun h => hni (h.trans (List.suffix_cons c cs).isInfix))]

/-! ## Occurrence counting and unique replacement -/

theorem mem_occPositions {t s : Str} {i : Nat} :
    i ∈ occPositions t s ↔ i ≤ s.length ∧ t.isPrefixOf (s.drop i) := by
  simp only [occPositions, List.mem_filter, List.mem_range, Nat.lt_succ_iff]

theorem pos_mem_of_decomp {t s p q : Str} (h : s = p ++ t ++ q) :
    p.length ∈ occPositions t s := by
  rw [mem_occPositions]
  constructor
  · subst h; simp only [List.length_append]; omega
  · subst h
    rw [List.append_assoc, List.drop_left]
    exact List.isPrefixOf_iff_prefix.mpr (List.prefix_append t q)

theorem occCount_one_unique {t s : Str} (h1 : occCount t s = 1)
    {p q p' q' : Str} (hd : s = p ++ t ++ q) (hd' : s = p' ++ t ++ q') :
    p = p' := by
  obtain ⟨a, ha⟩ := List.length_eq_one.mp h1
  have hp := pos_mem_of_decomp hd
  have hp' := pos_mem_of_decomp hd'
  rw [ha, List.mem_singleton] at hp hp'
  have hlen : p.length = p'.length := by rw [hp, hp']
  have := List.append_inj (by rw [← List.append_assoc, ← hd, hd', List.append_assoc]) hlen
  exact this.1

/-- Replacing when `t` occurs exactly once, at the designated position. -/
theorem goReplaceAll_single {t : Str} (r : Str) (ht : t ≠ []) :
    ∀ (p q : Str), (∀ p' q', p ++ t ++ q = p' ++ t ++ q' → p' = p) →
      goReplaceAll t r (p ++ t ++ q) = p ++ r ++ q := by
  intro p
  induction p with
  | nil =>
    intro q hu
    obtain ⟨d, t', rfl⟩ : ∃ d t', t = d :: t' := by
      cases t with
      | nil => exact absurd rfl ht
      | cons d t' => exact ⟨d, t', rfl⟩
    simp only [List.nil_append]
    have hpre : (d :: t').isPrefixOf ((d :: t') ++ q) :=
      List.isPrefixOf_iff_prefix.mpr (List.prefix_append _ q)
    rw [show (d :: t') ++ q = d :: (t' ++ q) from rfl] at hpre ⊢
    rw [goReplaceAll_pos r ⟨hpre, ht⟩]
    have hq : ¬ (d :: t') <:+: q := by
      intro hinf
      obtain ⟨a, b, hab⟩ := hinf
      have := hu ((d :: t') ++ a) b (by
        simp only [List.nil_append]
        rw [List.append_assoc, List.append_assoc, ← hab]
        simp)
      simp at this
    rw [show d :: (t' ++ q) = (d :: t') ++ q from rfl, List.drop_left,
      goReplaceAll_of_not_infix r hq]
  | cons c p' ih =>
    intro q hu
    have hnp : ¬ (t.isPrefixOf ((c :: p') ++ t ++ q) ∧ t ≠ []) := by
      intro ⟨hpre, _⟩
      obtain ⟨rest, hrest⟩ := List.isPrefixOf_iff_prefix.mp hpre
      have := hu [] rest (by simpa using hrest.symm)
      simp at this
    rw [show (c :: p') ++ t ++ q = c :: (p' ++ t ++ q) from rfl] at hnp ⊢
    rw [goReplaceAll_neg r hnp]
    rw [ih q (fun p'' q'' heq => by
      have h2 : (c :: p') ++ t ++ q = (c :: p'') ++ t ++ q'' := by
        show c :: (p' ++ t ++ q) = c :: (p'' ++ t ++ q'')
        rw [heq]
      have := hu (c :: p'') q'' h2
      exact List.cons.inj this |>.2 )]
    rfl

/-- Sequential unescaping over a segmented text: if each token occurs
exactly once in the text it is replaced in, the fold of `goReplaceAll`
rewrites exactly the token segments. -/
theorem unescape_segs :
    ∀ (segs : List Seg) (pre : Str),
      (∀ tr ∈ segSlots segs, tr.1 ≠ ([] : Str)) →
      uniqueChain (segSlots segs) (pre ++ segStr segs) = true →
      unescape (segSlots segs) (pre ++ segStr segs) = pre ++ segRep segs := by
  intro segs
  induction segs with
  | nil =>
    intro pre _ _
    simp [segSlots, segStr, segRep, unescape]
  | cons sg rest ih =>
    intro pre hne hchain
    cases sg with
    | inl a =>
      simp only [segSlots, segStr, segRep] at *
      rw [← List.append_assoc] at hchain ⊢
      rw [ih (pre ++ a) hne hchain, List.append_assoc]
    | inr tr =>
      obtain ⟨t, r⟩ := tr
      simp only [segSlots, segStr, segRep] at *
      have htne : t ≠ [] := hne (t, r) (List.mem_cons_self _ _)
      simp only [uniqueChain, Bool.and_eq_true, beq_iff_eq] at hchain
      obtain ⟨hocc, hrest⟩ := hchain
      rw [← List.append_assoc] at hocc
      have hu : ∀ p' q', pre ++ t ++ segStr rest = p' ++ t ++ q' → p' = pre :=
        fun p' q' h => (occCount_one_unique hocc rfl h).symm
      have hstep : goReplaceAll t r (pre ++ t ++ segStr rest) = pre ++ r ++ segStr rest :=
        goReplaceAll_single r htne pre (segStr rest) hu
      simp only [unescape, List.foldl_cons]
      rw [← List.append_assoc, hstep]
      have hrest' : uniqueChain (segSlots rest) ((pre ++ r) ++ segStr rest) = true := by
        rw [← List.append_assoc] at hrest
        rw [hstep] at hrest
        exact hrest
      have := ih (pre ++ r) (fun x hx => hne x (List.mem_cons_of_mem _ hx)) hrest'
      simp only [unescape] at this
      rw [this, List.append_assoc]

/-! ## The escape round trip (claim C3) -/

theorem slotTok_ne_nil (n : Nat) : slotTok n ≠ ([] : Str) := by
  simp [slotTok]

theorem segStr_segsOfTemplate (ev : Str → Str) :
    ∀ (n : Nat) (T : List Piece),
      segStr (segsOfTemplate ev n T) = renderT ev (escapeAux n T).1 := by
  intro n T
  induction T generalizing n with
  | nil => rfl
  | cons p rest ih =>
    cases p with
    | lit s => simp [segsOfTemplate, escapeAux, renderT, segStr, ih]
    | act b => simp [segsOfTemplate, escapeAux, renderT, segStr, ih]
    | esc b => simp [segsOfTemplate, escapeAux, renderT, segStr, ih]

theorem segRep_segsOfTemplate (ev : Str → Str) :
    ∀ (n : Nat) (T : List Piece),
      segRep (segsOfTemplate ev n T) = renderDirect ev T := by
  intro n T
  induction T generalizing n with
  | nil => rfl
  | cons p rest ih =>
    cases p with
    | lit s => simp [segsOfTemplate, renderDirect, segRep, ih]
    | act b => simp [segsOfTemplate, renderDirect, segRep, ih]
    | esc b => simp [segsOfTemplate, renderDirect, segRep, ih]

theorem segSlots_segsOfTemplate (ev : Str → Str) :
    ∀ (n : Nat) (T : List Piece),
      segSlots (segsOfTemplate ev n T) = (escapeAux n T).2 := by
  intro n T
  induction T generalizing n with
  | nil => rfl
  | cons p rest ih =>
    cases p with
    | lit s => simp [segsOfTemplate, escapeAux, segSlots, ih]
    | act b => simp [segsOfTemplate, escapeAux, segSlots, ih]
    | esc b => simp [segsOfTemplate, escapeAux, segSlots, ih]

theorem escapeAux_tok_ne_nil :
    ∀ (n : Nat) (T : List Piece), ∀ tr ∈ (escapeAux n T).2, tr.1 ≠ ([] : Str) := by
  intro n T
  induction T generalizing n with
  | nil => intro tr h; simp [escapeAux] at h
  | cons p rest ih =>
    intro tr h
    cases p with
    | lit s => exact ih n tr (by simpa [escapeAux] using h)
    | act b => exact ih n tr (by simpa [escapeAux] using h)
    | esc b =>
      simp only [escapeAux, List.mem_cons] at h
      rcases h with h | h
      · subst h; exact slotTok_ne_nil n
      · exact ih (n + 1) tr h

/-- C3: for every template containing actions opened with the escape marker,
rendering the escaped template and unescaping restores each escaped action
verbatim with only the marker removed while every non-escaped action is
evaluated normally — provided the generated placeholder tokens are fresh
(each occurs exactly once in the text it is substituted in), which is the
spec's token-collision proviso. -/
theorem c3_escape_roundtrip (T : List Piece) (ev : Str → Str)
    (h : uniqueChain (escapeT T).2 (renderT ev (escapeT T).1) = true) :
    unescape (escapeT T).2 (renderT ev (escapeT T).1) = renderDirect ev T := by
  have hs := segStr_segsOfTemplate ev 0 T
  have hr := segRep_segsOfTemplate ev 0 T
  have hl := segSlots_segsOfTemplate ev 0 T
  have hne : ∀ tr ∈ segSlots (segsOfTemplate ev 0 T), tr.1 ≠ ([] : Str) := by
    rw [hl]; exact escapeAux_tok_ne_nil 0 T
  have hchain : uniqueChain (segSlots (segsOfTemplate ev 0 T))
      ([] ++ segStr (segsOfTemplate ev 0 T)) = true := by
    rw [hl, hs, List.nil_append]
    exact h
  have := unescape_segs (segsOfTemplate ev 0 T) [] hne hchain
  rw [hl, hs, List.nil_append, List.nil_append, hr] at this
  exact this

theorem c3_escape_roundtrip_witness :
    uniqueChain
        (escapeT [Piece.lit "Hello ".toList, Piece.act " Fn .Ns.X ".toList,
          Piece.lit " ".toList, Piece.esc " .Other.Y ".toList]).2
        (renderT (fun b => if b = " Fn .Ns.X ".toList then ['2'] else [])
          (escapeT [Piece.lit "Hello ".toList, Piece.act " Fn .Ns.X ".toList,
            Piece.lit " ".toList, Piece.esc " .Other.Y ".toList]).1) = true ∧
      unescape
        (escapeT [Piece.lit "Hello ".toList, Piece.act " Fn .Ns.X ".toList,
          Piece.lit " ".toList, Piece.esc " .Other.Y ".toList]).2
        (renderT (fun b => if b = " Fn .Ns.X ".toList then ['2'] else [])
          (escapeT [Piece.lit "Hello ".toList, Piece.act " Fn .Ns.X ".toList,
            Piece.lit " ".toList, Piece.esc " .Other.Y ".toList]).1) =
        "Hello 2 ".toList ++ ('{' :: '{' :: (" .Other.Y ".toList ++ ['}', '}'])) := by
  refine ⟨by decide, ?_⟩
  rw [c3_escape_roundtrip _ _ (by decide)]
  decide

/-! ## The missing-value scrub (claim C6) -/

/-- C6 counterexample: the single left-to-right pass of `strings.Replace`
does not rescan the text it produces, so removing the two occurrences of
`"<no value>"` inside `"<no va<no value>lue>"` leaves the output equal to
the sentinel itself — a successful render whose returned text does contain
`"<no value>"`. -/
theorem c6_counterexample :
    scrubNoValue ("<no va<no value>lue>".toList) = noValue ∧
      noValue <:+: scrubNoValue ("<no va<no value>lue>".toList) := by
  refine ⟨by decide, ?_⟩
  rw [show scrubNoValue ("<no va<no value>lue>".toList) = noValue from by decide]

/-- C6 (amended): the returned text equals the raw template-execution output
with every occurrence of the sentinel `"<no value>"` removed in a single
left-to-right non-overlapping pass — equivalently, the concatenation of the
sentinel-split segments; a sentinel-free raw output is returned unchanged,
and a raw output with exactly one occurrence has precisely that occurrence
replaced by the empty string (an undefined variable renders as empty).  The
output may still contain the sentinel when removal rejoins fragments that
spell it. -/
theorem c6_scrub_amended :
    (∀ raw : Str, scrubNoValue raw = (goSplit noValue raw).flatten) ∧
      (∀ raw : Str, ¬ noValue <:+: raw → scrubNoValue raw = raw) ∧
      (∀ p q : Str, occCount noValue (p ++ noValue ++ q) = 1 →
        scrubNoValue (p ++ noValue ++ q) = p ++ q) := by
  refine ⟨fun raw => goReplaceAll_empty_join noValue raw,
    fun raw h => goReplaceAll_of_not_infix [] h, fun p q h => ?_⟩
  have hne : noValue ≠ ([] : Str) := by decide
  have := goReplaceAll_single ([] : Str) hne p q
    (fun p' q' hd => occCount_one_unique h rfl hd |>.symm)
  simpa [scrubNoValue] using this

theorem c6_scrub_amended_witness :
    (¬ noValue <:+: "abc".toList) ∧ scrubNoValue "abc".toList = "abc".toList ∧
      occCount noValue ("x".toList ++ noValue ++ "y".toList) = 1 ∧
      scrubNoValue ("x".toList ++ noValue ++ "y".toList) = "x".toList ++ "y".toList := by
  have h1 : ¬ noValue <:+: "abc".toList := by decide
  have h2 : occCount noValue ("x".toList ++ noValue ++ "y".toList) = 1 := by decide
  exact ⟨h1, c6_scrub_amended.2.1 _ h1, h2, c6_scrub_amended.2.2 _ _ h2⟩

/-! ## The multi-document split (claim C4) -/

/-- C4: the source splits with `strings.Split`, which divides at EVERY
occurrence of the separator, not only at lines equal to it: with the default
separator `"---"`, the single-line text `"image: a---b"` (separator embedded
in a line with other text) is split into two documents, while the split the
claim and the `MultiDocSeparator` documentation describe leaves it whole. -/
theorem c4_split_divergence :
    goSplit (defaultSep []) ("image: a---b".toList) =
        ["image: a".toList, "b".toList] ∧
      lineSplitSpec (defaultSep []) ("image: a---b".toList) =
        ["image: a---b".toList] ∧
      goSplit (defaultSep []) ("a\n---\nb".toList) = ["a\n".toList, "\nb".toList] := by
  refine ⟨by decide, by decide, by decide⟩

/-! ## Panic-mode propagation (claim C5) -/

/-- C5: in `CreateComponentMulti`, the document/instances count-mismatch
branch returns its error unconditionally — it has no `PanicOnError` branch,
unlike every other error site.  With `PanicOnError = true`, a component
whose rendered text splits into two documents against one declared instance
returns `(nil, parts, CountMismatchError)` instead of aborting. -/
theorem c5_panic_mode_mismatch_returned :
    renderMulti
        (⟨"demo".toList, true, "---".toList, [()], .ok (), .ok ("a\n---\nb".toList),
          fun _ u => .ok u⟩ : MultiComp Unit) =
      (RunRes.ret [] ["a\n".toList, "\nb".toList] (some (.countMismatch 2 1)), 0) ∧
    (⟨"demo".toList, true, "---".toList, [()], .ok (), .ok ("a\n---\nb".toList),
        fun _ u => .ok u⟩ : MultiComp Unit).panicOnError = true := by
  exact ⟨rfl, rfl⟩

/-! ## Count mismatch fails fast (claim C1) -/

/-- C1: whenever the rendered text splits into a number of documents
different from the number of caller-declared instances, the multi-document
`Render` returns exactly the count-mismatch error carrying the found
document count and the expected instance count, and makes zero `Unmarshal`
calls (no document is decoded). -/
theorem c1_count_mismatch_fails_fast {TType : Type} (c : MultiComp TType) (content : Str)
    (hs : c.setupRes = .ok ()) (hr : c.renderRes = .ok content)
    (hm : (goSplit c.sep content).length ≠ c.instances.length) :
    renderMulti c =
      (RunRes.ret [] (goSplit c.sep content)
        (some (.countMismatch (goSplit c.sep content).length c.instances.length)), 0) := by
  unfold renderMulti renderMultiBody
  simp only [hs, hr]
  rw [if_pos (Ne.symm hm)]

theorem c1_count_mismatch_fails_fast_witness :
    renderMulti
        (⟨"w".toList, false, "---".toList, [], .ok (), .ok ("x".toList),
          fun _ u => .ok u⟩ : MultiComp Unit) =
      (RunRes.ret [] ["x".toList] (some (.countMismatch 1 0)), 0) := by
  have h := c1_count_mismatch_fails_fast
    (⟨"w".toList, false, "---".toList, [], .ok (), .ok ("x".toList),
      fun _ u => .ok u⟩ : MultiComp Unit)
    ("x".toList) rfl rfl (by decide)
  exact h.trans (by decide)

/-! ## Strict decoding rejects unknown fields (claim C2) -/

/-- C2: for every document and target shape, the default decode fails with
an error naming an offending field whenever the document contains a field
absent from the shape — unknown fields are never silently dropped. -/
theorem c2_unknown_field_rejected (shape : List Str) (doc : JObj)
    (h : ∃ kv ∈ doc, shape.contains kv.1 = false) :
    ∃ f, unmarshall shape doc = .error (.unknownField f) ∧
      shape.contains f = false ∧ f ∈ doc.map Prod.fst := by
  have hsome : (doc.find? (fun kv => !(shape.contains kv.1))).isSome := by
    rw [List.find?_isSome]
    obtain ⟨kv, hmem, hkv⟩ := h
    exact ⟨kv, hmem, by rw [hkv]; rfl⟩
  obtain ⟨kv, hkv⟩ := Option.isSome_iff_exists.mp hsome
  refine ⟨kv.1, ?_, ?_, ?_⟩
  · simp only [unmarshall, yamlToJSONM, decodeStrict, hkv]
  · have := List.find?_some hkv
    simpa using this
  · exact List.mem_map_of_mem Prod.fst (List.mem_of_find?_eq_some hkv)

theorem c2_unknown_field_rejected_witness :
    (∃ kv ∈ [("replicas".toList, JVal.num 3)],
        ["apiVersion".toList, "kind".toList].contains kv.1 = false) ∧
      unmarshall ["apiVersion".toList, "kind".toList] [("replicas".toList, JVal.num 3)] =
        .error (.unknownField "replicas".toList) := by
  have h : ∃ kv ∈ [("replicas".toList, JVal.num 3)],
      ["apiVersion".toList, "kind".toList].contains kv.1 = false :=
    ⟨("replicas".toList, JVal.num 3), by decide⟩
  obtain ⟨f, hf, _, hmem⟩ := c2_unknown_field_rejected _ _ h
  have hfr : f = "replicas".toList := by simpa using hmem
  exact ⟨h, by rw [hf, hfr]⟩

/-! ## Blueprint instances are never mutated (claim C9) -/

theorem set_append_singleton {α : Type} (l : List α) (b v : α) :
    (l ++ [b]).set l.length v = l ++ [v] := by
  induction l with
  | nil => rfl
  | cons a as ih => simp [List.set, ih]

theorem take_append_of_le {α : Type} (l₁ l₂ : List α) (n : Nat) (h : n ≤ l₁.length) :
    (l₁ ++ l₂).take n = l₁.take n := by
  rw [List.take_append_eq_append_take, Nat.sub_eq_zero_of_le h, List.take_zero,
    List.append_nil]

theorem doUnmarshalMulti_frame {α : Type} (name : Str) (um : Str → α → Except GoErr α) :
    ∀ (docs : List Str) (idx : Nat) (out : List α) (st : UMState α) (n : Nat),
      n ≤ st.mem.length →
      ((doUnmarshalMulti name um docs idx out st).1).mem.take n = st.mem.take n := by
  intro docs
  induction docs with
  | nil => intro idx out st n _; rfl
  | cons doc rest ih =>
    intro idx out st n h
    simp only [doUnmarshalMulti]
    cases hidx : st.mem.get? idx with
    | none => rfl
    | some blueprint =>
      cases hum : um doc blueprint with
      | error e =>
        simp only [hum]
        exact take_append_of_le st.mem [blueprint] n h
      | ok v =>
        simp only [hum]
        rw [ih (idx + 1) (out ++ [v])
          ⟨(st.mem ++ [blueprint]).set st.mem.length v, st.calls + 1⟩ n
          (by simp [set_append_singleton]; omega)]
        simp only [UMState.mk.injEq, set_append_singleton]
        exact take_append_of_le st.mem [v] n h

/-- C9: `doUnmarshalMulti` decodes each document into a fresh copy of the
blueprint at that position and never writes to the blueprint cells: after it
returns — successfully or not — the first `n` store cells (the caller's
blueprint slice) are element-wise unchanged. -/
theorem c9_blueprints_unchanged {α : Type} (name : Str) (um : Str → α → Except GoErr α)
    (docs : List Str) (blue : List α) :
    ((doUnmarshalMulti name um docs 0 [] ⟨blue, 0⟩).1).mem.take blue.length = blue := by
  rw [doUnmarshalMulti_frame name um docs 0 [] ⟨blue, 0⟩ blue.length (Nat.le_refl _)]
  exact List.take_length ..

/-! ## Raw content is returned alongside decode errors (claim C10) -/

/-- C10: when decoding fails and `PanicOnError` is false, `Render` still
returns the raw rendered text with the error: the single-document variant
returns the full rendered content, the multi-document variant returns all
split content parts (with whatever instances were decoded so far). -/
theorem c10_content_returned_on_error :
    (∀ (TType : Type) (c : SingleComp TType) (content : Str) (v : TType) (e : GoErr),
      c.setupRes = .ok () → c.renderRes = .ok content → c.panicOnError = false →
      c.um content = (v, some e) →
      renderSingle c = .ret v content (some (.renderErrIn c.name e))) ∧
    (∀ (TType : Type) (c : MultiComp TType) (content : Str) (st : UMState TType)
        (e : GoErr) (out : List TType),
      c.setupRes = .ok () → c.renderRes = .ok content → c.panicOnError = false →
      c.instances.length = (goSplit c.sep content).length →
      doUnmarshalMulti c.name c.um (goSplit c.sep content) 0 [] ⟨c.instances, 0⟩ =
        (st, .err e out) →
      renderMulti c = (.ret out (goSplit c.sep content) (some e), st.calls)) := by
  constructor
  · intro TType c content v e hs hr hp hum
    unfold renderSingle renderSingleBody
    simp only [hs, hr, hum]
    simp [hp]
  · intro TType c content st e out hs hr hp hlen hum
    unfold renderMulti renderMultiBody
    simp only [hs, hr]
    rw [if_neg (by omega)]
    simp only [hum]
    simp [hp]

theorem c10_content_returned_on_error_witness :
    renderSingle
        (⟨"s".toList, false, (), .ok (), .ok ("k: v".toList),
          fun _ => ((), some (.user 3))⟩ : SingleComp Unit) =
      .ret () ("k: v".toList) (some (.renderErrIn "s".toList (.user 3))) ∧
    renderMulti
        (⟨"m".toList, false, "---".toList, [()], .ok (), .ok ("bad".toList),
          fun _ _ => .error (.user 4)⟩ : MultiComp Unit) =
      (.ret [] ["bad".toList] (some (.renderErrIn "m".toList (.user 4))), 1) := by
  constructor
  · exact c10_content_returned_on_error.1 Unit
      ⟨"s".toList, false, (), .ok (), .ok ("k: v".toList), fun _ => ((), some (.user 3))⟩
      ("k: v".toList) () (.user 3) rfl rfl rfl rfl
  · have h := c10_content_returned_on_error.2 Unit
      ⟨"m".toList, false, "---".toList, [()], .ok (), .ok ("bad".toList),
        fun _ _ => .error (.user 4)⟩
      ("bad".toList) ⟨[(), ()], 1⟩ (.renderErrIn "m".toList (.user 4)) []
      rfl rfl rfl (by decide) (by decide)
    exact h.trans (by decide)

/-! ## Lines round trips and the Unindent bridge (claim C7) -/

theorem splitNl_cons (c : Char) (cs : Str) {l : Str} {ls : List Str}
    (hs : splitNl cs = l :: ls) :
    splitNl (c :: cs) = if c = '\n' then [] :: l :: ls else (c :: l) :: ls := by
  simp only [splitNl, hs]

theorem splitNl_ne_nil : ∀ s : Str, splitNl s ≠ [] := by
  intro s
  induction s with
  | nil => simp [splitNl]
  | cons c cs ih =>
    cases hs : splitNl cs with
    | nil => exact absurd hs ih
    | cons l ls =>
      rw [splitNl_cons c cs hs]
      by_cases h : c = '\n' <;> simp [h]

theorem joinNl_cons_cons (c : Char) (l : Str) (ls : List Str) :
    joinNl ((c :: l) :: ls) = c :: joinNl (l :: ls) := by
  cases ls <;> rfl

theorem joinNl_splitNl : ∀ s : Str, joinNl (splitNl s) = s := by
  intro s
  induction s with
  | nil => rfl
  | cons c cs ih =>
    cases hs : splitNl cs with
    | nil => exact absurd hs (splitNl_ne_nil cs)
    | cons l ls =>
      rw [splitNl_cons c cs hs]
      rw [hs] at ih
      by_cases h : c = '\n'
      · rw [if_pos h, h]
        show '\n' :: joinNl (l :: ls) = '\n' :: cs
        rw [ih]
      · rw [if_neg h, joinNl_cons_cons, ih]

theorem minNat?_eq_none_iff {xs : List Nat} : minNat? xs = none ↔ xs = [] := by
  cases xs with
  | nil => simp [minNat?]
  | cons n ns =>
    simp only [minNat?]
    cases minNat? ns <;> simp

theorem minNat?_mem {xs : List Nat} {m : Nat} (h : minNat? xs = some m) : m ∈ xs := by
  induction xs generalizing m with
  | nil => simp [minNat?] at h
  | cons n ns ih =>
    simp only [minNat?] at h
    cases hns : minNat? ns with
    | none =>
      rw [hns] at h
      simp at h
      simp [h]
    | some k =>
      rw [hns] at h
      simp at h
      rcases Nat.le_total n k with hle | hle
      · rw [Nat.min_eq_left hle] at h; simp [h]
      · rw [Nat.min_eq_right hle] at h
        exact List.mem_cons_of_mem n (ih (h ▸ hns))

theorem minNat?_le {xs : List Nat} {m : Nat} (h : minNat? xs = some m) :
    ∀ x ∈ xs, m ≤ x := by
  induction xs generalizing m with
  | nil => simp
  | cons n ns ih =>
    intro x hx
    simp only [minNat?] at h
    cases hns : minNat? ns with
    | none =>
      rw [hns] at h
      simp at h
      have hn : ns = [] := minNat?_eq_none_iff.mp hns
      subst hn
      simp at hx
      omega
    | some k =>
      rw [hns] at h
      simp at h
      rcases List.mem_cons.mp hx with rfl | hx
      · omega
      · have := ih hns x hx
        omega

theorem minNat?_of_mem_zero {xs : List Nat} (h : 0 ∈ xs) : minNat? xs = some 0 := by
  have hne : xs ≠ [] := by rintro rfl; simp at h
  cases hm : minNat? xs with
  | none => exact absurd (minNat?_eq_none_iff.mp hm) hne
  | some m =>
    have := minNat?_le hm 0 h
    simp only [Option.some.injEq]
    omega

theorem leadSp_int (l : Str) :
    (l.length : Int) - ((l.dropWhile (fun c => c = ' ')).length : Int) = (leadSp l : Int) := by
  have h : (l.takeWhile (fun c => c = ' ')).length + (l.dropWhile (fun c => c = ' ')).length
      = l.length := by
    rw [← List.length_append, List.takeWhile_append_dropWhile]
  unfold leadSp
  omega

theorem indentStep_blank {l : Str} (hb : isBlankU l = true) (acc : Int) :
    indentStep acc l = acc := by
  simp [indentStep, hb]

theorem indentStep_nonblank_nat {l : Str} (hb : isBlankU l = false) (n : Nat) :
    indentStep ((n : Nat) : Int) l = ((min (leadSp l) n : Nat) : Int) := by
  unfold indentStep
  rw [if_neg (by simp [hb])]
  simp only [leadSp_int]
  by_cases hlt : leadSp l < n
  · rw [if_pos (by
      simp only [Bool.or_eq_true, decide_eq_true_eq]
      right
      exact_mod_cast hlt)]
    congr 1
    omega
  · rw [if_neg (by
      simp only [Bool.or_eq_true, decide_eq_true_eq]
      push_neg
      refine ⟨by omega, by omega⟩)]
    congr 1
    omega

theorem indentStep_start {l : Str} (hb : isBlankU l = false) :
    indentStep (-1) l = ((leadSp l : Nat) : Int) := by
  unfold indentStep
  rw [if_neg (by simp [hb])]
  simp only [leadSp_int]
  rw [if_pos (by simp)]

theorem indent_fold_nat :
    ∀ (lines : List Str) (n : Nat),
      List.foldl indentStep ((n : Nat) : Int) lines =
        ((min n ((minNat? ((lines.filter (fun l => !(isBlankU l))).map leadSp)).getD n)
          : Nat) : Int) := by
  intro lines
  induction lines with
  | nil => intro n; simp [minNat?]
  | cons l rest ih =>
    intro n
    by_cases hb : isBlankU l
    · rw [List.foldl_cons, indentStep_blank hb, ih n]
      congr 2
      simp [List.filter_cons, hb]
    · rw [List.foldl_cons, indentStep_nonblank_nat (by simpa using hb) n,
        ih (min (leadSp l) n)]
      have hf : (l :: rest).filter (fun x => !(isBlankU x)) =
          l :: rest.filter (fun x => !(isBlankU x)) := by
        simp [List.filter_cons, hb]
      rw [hf]
      simp only [List.map_cons, minNat?]
      cases hmr : minNat? ((rest.filter (fun x => !(isBlankU x))).map leadSp) with
      | none =>
        simp only [Option.getD_none, Option.getD_some]
        congr 1
        omega
      | some k =>
        simp only [Option.getD_some]
        congr 1
        omega

theorem smallestIndentGo_none :
    ∀ lines : List Str, minIndent? lines = none → smallestIndentGo lines = -1 := by
  intro lines
  unfold minIndent? smallestIndentGo
  induction lines with
  | nil => intro _; rfl
  | cons l rest ih =>
    intro h
    by_cases hb : isBlankU l
    · rw [List.filter_cons, if_neg (by simp [hb])] at h
      rw [List.foldl_cons, indentStep_blank hb]
      exact ih h
    · rw [List.filter_cons, if_pos (by simp [hb]), List.map_cons,
        minNat?_eq_none_iff] at h
      simp at h

theorem smallestIndentGo_some :
    ∀ (lines : List Str) (m : Nat), minIndent? lines = some m →
      smallestIndentGo lines = ((m : Nat) : Int) := by
  intro lines
  unfold minIndent? smallestIndentGo
  induction lines with
  | nil => intro m h; simp [minNat?] at h
  | cons l rest ih =>
    intro m h
    by_cases hb : isBlankU l
    · rw [List.filter_cons, if_neg (by simp [hb])] at h
      rw [List.foldl_cons, indentStep_blank hb]
      exact ih m h
    · rw [List.filter_cons, if_pos (by simp [hb]), List.map_cons, minNat?] at h
      rw [List.foldl_cons, indentStep_start (by simpa using hb), indent_fold_nat]
      cases hmr : minNat? ((rest.filter (fun x => !(isBlankU x))).map leadSp) with
      | none =>
        rw [hmr] at h
        simp only [Option.some.injEq] at h
        simp only [Option.getD_none]
        omega
      | some k =>
        rw [hmr] at h
        simp only [Option.some.injEq] at h
        simp only [Option.getD_some]
        omega

theorem unindent_eq_spec (s : Str) : Unindent s = unindentSpec s := by
  have hrw : Unindent s = (if smallestIndentGo (splitNl s) = -1 then s
      else joinNl ((splitNl s).map (fun l =>
        if smallestIndentGo (splitNl s) ≤ (l.length : Int)
        then l.drop (smallestIndentGo (splitNl s)).toNat else l))) := rfl
  rw [hrw]
  unfold unindentSpec unindentLines
  cases h : minIndent? (splitNl s) with
  | none =>
    rw [smallestIndentGo_none _ h, if_pos rfl, joinNl_splitNl]
  | some m =>
    rw [smallestIndentGo_some _ m h, if_neg (by omega)]
    congr 1
    apply List.map_congr_left
    intro l _
    by_cases hm : m ≤ l.length
    · rw [if_pos (by exact_mod_cast hm), if_pos hm]
      simp
    · rw [if_neg (by exact_mod_cast hm), if_neg hm]

/-- C7 (amended): `Unindent` computes the minimum leading-space count over
the non-blank lines and strips exactly that many leading characters from
every line AT LEAST THAT LONG, leaving shorter (necessarily blank) lines
unchanged; with all lines blank the input is returned unchanged, and for
leading-space counts `{4,2,6}` exactly two spaces are removed from every
line. -/
theorem c7_unindent_amended :
    (∀ s : Str, Unindent s = unindentSpec s) ∧
      Unindent ("    a\n  b\n      c".toList) = "  a\nb\n    c".toList ∧
      Unindent ("   \n  ".toList) = "   \n  ".toList := by
  exact ⟨unindent_eq_spec, by decide, by decide⟩

/-- C7 counterexample: on `"  a\n \n  b"` the minimum over non-blank lines
is 2 but the blank line `" "` is shorter than 2, and the source leaves it
unchanged instead of clipping it to the empty line as the claim states. -/
theorem c7_counterexample :
    Unindent ("  a\n \n  b".toList) ≠ unindentClaimed ("  a\n \n  b".toList) ∧
      unindentClaimed ("  a\n \n  b".toList) = "a\n\nb".toList ∧
      Unindent ("  a\n \n  b".toList) = "a\n \nb".toList := by
  exact ⟨by decide, by decide, by decide⟩

/-! ## Preprocess idempotence: line-level facts (claim C8) -/

theorem splitNl_no_newline {l : Str} (h : '\n' ∉ l) : splitNl l = [l] := by
  induction l with
  | nil => rfl
  | cons c cs ih =>
    have hc : c ≠ '\n' := fun hcc => h (hcc ▸ List.mem_cons_self c cs)
    have hcs : '\n' ∉ cs := fun hm => h (List.mem_cons_of_mem c hm)
    rw [splitNl_cons c cs (ih hcs), if_neg hc]

theorem splitNl_append_nl {l : Str} (t : Str) (h : '\n' ∉ l) :
    splitNl (l ++ '\n' :: t) = l :: splitNl t := by
  induction l with
  | nil =>
    simp only [List.nil_append]
    cases ht : splitNl t with
    | nil => exact absurd ht (splitNl_ne_nil t)
    | cons x xs => rw [splitNl_cons '\n' t ht, if_pos rfl, ← ht]
  | cons c cs ih =>
    have hc : c ≠ '\n' := fun hcc => h (hcc ▸ List.mem_cons_self c cs)
    have hcs : '\n' ∉ cs := fun hm => h (List.mem_cons_of_mem c hm)
    have hr := ih hcs
    show splitNl (c :: (cs ++ '\n' :: t)) = (c :: cs) :: splitNl t
    cases ht : splitNl t with
    | nil => exact absurd ht (splitNl_ne_nil t)
    | cons x xs =>
      rw [ht] at hr
      rw [splitNl_cons c (cs ++ '\n' :: t) hr, if_neg hc]

theorem splitNl_joinNl :
    ∀ ls : List Str, ls ≠ [] → (∀ l ∈ ls, '\n' ∉ l) → splitNl (joinNl ls) = ls := by
  intro ls
  induction ls with
  | nil => intro h _; exact absurd rfl h
  | cons l rest ih =>
    intro _ hnl
    cases rest with
    | nil =>
      show splitNl (joinNl [l]) = [l]
      exact splitNl_no_newline (hnl l (List.mem_cons_self l []))
    | cons l₂ rest₂ =>
      show splitNl (l ++ '\n' :: joinNl (l₂ :: rest₂)) = l :: l₂ :: rest₂
      rw [splitNl_append_nl _ (hnl l (List.mem_cons_self _ _)),
        ih (by simp) (fun x hx => hnl x (List.mem_cons_of_mem l hx))]

theorem splitNl_no_nl : ∀ (s : Str), ∀ l ∈ splitNl s, '\n' ∉ l := by
  intro s
  induction s with
  | nil =>
    intro l hl
    simp [splitNl] at hl
    simp [hl]
  | cons c cs ih =>
    intro l hl
    cases hs : splitNl cs with
    | nil => exact absurd hs (splitNl_ne_nil cs)
    | cons x xs =>
      rw [splitNl_cons c cs hs] at hl
      by_cases hc : c = '\n'
      · rw [if_pos hc] at hl
        rcases List.mem_cons.mp hl with rfl | hl
        · simp
        · exact ih l (hs ▸ hl)
      · rw [if_neg hc] at hl
        rcases List.mem_cons.mp hl with rfl | hl
        · intro hmem
          rcases List.mem_cons.mp hmem with h | h
          · exact hc h.symm
          · exact ih x (hs ▸ List.mem_cons_self x xs) h
        · exact ih l (hs ▸ List.mem_cons_of_mem x hl)

theorem splitNl_chars : ∀ (s : Str), ∀ l ∈ splitNl s, ∀ c ∈ l, c ∈ s := by
  intro s
  induction s with
  | nil =>
    intro l hl c hc
    simp [splitNl] at hl
    subst hl
    simp at hc
  | cons a cs ih =>
    intro l hl c hc
    cases hs : splitNl cs with
    | nil => exact absurd hs (splitNl_ne_nil cs)
    | cons x xs =>
      rw [splitNl_cons a cs hs] at hl
      by_cases ha : a = '\n'
      · rw [if_pos ha] at hl
        rcases List.mem_cons.mp hl with rfl | hl
        · simp at hc
        · exact List.mem_cons_of_mem a (ih l (hs ▸ hl) c hc)
      · rw [if_neg ha] at hl
        rcases List.mem_cons.mp hl with rfl | hl
        · rcases List.mem_cons.mp hc with rfl | hc
          · exact List.mem_cons_self c cs
          · exact List.mem_cons_of_mem a (ih x (hs ▸ List.mem_cons_self x xs) c hc)
        · exact List.mem_cons_of_mem a (ih l (hs ▸ List.mem_cons_of_mem x hl) c hc)

theorem dropLeadB_suffix : ∀ ls : List Str, dropLeadB ls <:+ ls := by
  intro ls
  induction ls with
  | nil => exact List.suffix_rfl
  | cons l rest ih =>
    cases rest with
    | nil => exact List.suffix_rfl
    | cons l₂ rest₂ =>
      show dropLeadB (l :: l₂ :: rest₂) <:+ _
      simp only [dropLeadB]
      by_cases hb : isBlankRe l
      · rw [if_pos hb]
        exact ih.trans (List.suffix_cons l _)
      · rw [if_neg hb]

theorem dropLeadB_ne_nil : ∀ ls : List Str, ls ≠ [] → dropLeadB ls ≠ [] := by
  intro ls
  induction ls with
  | nil => intro h; exact absurd rfl h
  | cons l rest ih =>
    intro _
    cases rest with
    | nil => simp [dropLeadB]
    | cons l₂ rest₂ =>
      simp only [dropLeadB]
      by_cases hb : isBlankRe l
      · rw [if_pos hb]; exact ih (by simp)
      · rw [if_neg hb]; simp

theorem dropLeadB_of_nonblank {h : Str} (rest : List Str) (hb : isBlankRe h = false) :
    dropLeadB (h :: rest) = h :: rest := by
  cases rest with
  | nil => rfl
  | cons l₂ rest₂ =>
    simp only [dropLeadB]
    rw [if_neg (by simp [hb])]

theorem dropLeadB_idem : ∀ ls : List Str, dropLeadB (dropLeadB ls) = dropLeadB ls := by
  intro ls
  induction ls with
  | nil => rfl
  | cons l rest ih =>
    cases rest with
    | nil => rfl
    | cons l₂ rest₂ =>
      simp only [dropLeadB]
      by_cases hb : isBlankRe l
      · rw [if_pos hb]; exact ih
      · rw [if_neg hb]
        show dropLeadB (l :: l₂ :: rest₂) = _
        simp only [dropLeadB]
        rw [if_neg hb]

theorem dropLeadB_shape :
    ∀ ls : List Str, dropLeadB ls = [] ∨ (∃ x, dropLeadB ls = [x]) ∨
      ∃ h t, dropLeadB ls = h :: t ∧ isBlankRe h = false := by
  intro ls
  induction ls with
  | nil => exact Or.inl rfl
  | cons l rest ih =>
    cases rest with
    | nil => exact Or.inr (Or.inl ⟨l, rfl⟩)
    | cons l₂ rest₂ =>
      simp only [dropLeadB]
      by_cases hb : isBlankRe l
      · rw [if_pos hb]; exact ih
      · rw [if_neg hb]
        exact Or.inr (Or.inr ⟨l, l₂ :: rest₂, rfl, by simpa using hb⟩)

theorem dropTrailB_ne_nil (ls : List Str) (h : ls ≠ []) : dropTrailB ls ≠ [] := by
  unfold dropTrailB
  intro hc
  have := dropLeadB_ne_nil ls.reverse (by simpa using h)
  rw [← List.reverse_reverse (dropLeadB ls.reverse), hc] at this
  exact this rfl

theorem dropTrailB_cons_head (h : Str) (rest : List Str) :
    ∃ rest', dropTrailB (h :: rest) = h :: rest' := by
  unfold dropTrailB
  have hsuf := dropLeadB_suffix (h :: rest).reverse
  have hne := dropLeadB_ne_nil (h :: rest).reverse (by simp)
  obtain ⟨pre, hpre⟩ := hsuf
  rcases List.eq_nil_or_concat (dropLeadB (h :: rest).reverse) with hnil | ⟨Y₀, y, hY⟩
  · exact absurd hnil hne
  · rw [List.concat_eq_append] at hY
    rw [hY] at hpre
    rw [List.reverse_cons] at hpre
    rw [← List.append_assoc] at hpre
    have hinj := List.append_inj' hpre (by simp)
    have hy : y = h := by
      have h2 := hinj.2
      simpa using h2
    refine ⟨Y₀.reverse, ?_⟩
    rw [hY, hy, List.reverse_append, List.reverse_singleton]
    rfl

theorem dropTrailB_idem (ls : List Str) : dropTrailB (dropTrailB ls) = dropTrailB ls := by
  unfold dropTrailB
  rw [List.reverse_reverse, dropLeadB_idem]

theorem mem_dropTrailB {x : Str} {ls : List Str} (h : x ∈ dropTrailB ls) : x ∈ ls := by
  unfold dropTrailB at h
  rw [List.mem_reverse] at h
  have := (dropLeadB_suffix ls.reverse).subset h
  rwa [List.mem_reverse] at this

theorem mem_trimLines {x : Str} {ls : List Str} (h : x ∈ trimLines ls) : x ∈ ls :=
  (dropLeadB_suffix ls).subset (mem_dropTrailB h)

theorem trimLines_ne_nil (ls : List Str) (h : ls ≠ []) : trimLines ls ≠ [] :=
  dropTrailB_ne_nil _ (dropLeadB_ne_nil ls h)

theorem dropLeadB_dropTrailB_dropLeadB (ls : List Str) :
    dropLeadB (dropTrailB (dropLeadB ls)) = dropTrailB (dropLeadB ls) := by
  rcases dropLeadB_shape ls with h | ⟨x, h⟩ | ⟨hd, t, h, hb⟩
  · rw [h]; rfl
  · rw [h]
    show dropLeadB (dropTrailB [x]) = dropTrailB [x]
    have hx : dropTrailB [x] = [x] := by
      unfold dropTrailB
      rfl
    rw [hx]
    rfl
  · rw [h]
    obtain ⟨rest', hr⟩ := dropTrailB_cons_head hd t
    rw [hr]
    exact dropLeadB_of_nonblank rest' hb

theorem trimLines_idem (ls : List Str) : trimLines (trimLines ls) = trimLines ls := by
  unfold trimLines
  rw [dropLeadB_dropTrailB_dropLeadB, dropTrailB_idem]

/-! ## Preprocess idempotence: unindent-level facts (claim C8) -/

theorem dropLeadB_map (g : Str → Str) :
    ∀ ls : List Str, (∀ l ∈ ls, isBlankRe (g l) = isBlankRe l) →
      dropLeadB (ls.map g) = (dropLeadB ls).map g := by
  intro ls
  induction ls with
  | nil => intro _; rfl
  | cons l rest ih =>
    intro hg
    cases rest with
    | nil => rfl
    | cons l₂ rest₂ =>
      show dropLeadB (g l :: g l₂ :: (rest₂.map g)) = _
      simp only [dropLeadB]
      rw [hg l (List.mem_cons_self _ _)]
      by_cases hb : isBlankRe l
      · rw [if_pos hb, if_pos hb]
        exact ih (fun x hx => hg x (List.mem_cons_of_mem l hx))
      · rw [if_neg hb, if_neg hb]
        rfl

theorem dropTrailB_map (g : Str → Str) (ls : List Str)
    (hg : ∀ l ∈ ls, isBlankRe (g l) = isBlankRe l) :
    dropTrailB (ls.map g) = (dropTrailB ls).map g := by
  unfold dropTrailB
  have h1 : (ls.map g).reverse = ls.reverse.map g := by
    rw [List.map_reverse]
  rw [h1, dropLeadB_map g ls.reverse (fun l hl => hg l (List.mem_reverse.mp hl)),
    List.map_reverse]

theorem trimLines_map (g : Str → Str) (ls : List Str)
    (hg : ∀ l ∈ ls, isBlankRe (g l) = isBlankRe l) :
    trimLines (ls.map g) = (trimLines ls).map g := by
  unfold trimLines
  rw [dropLeadB_map g ls hg,
    dropTrailB_map g (dropLeadB ls) (fun l hl => hg l ((dropLeadB_suffix ls).subset hl))]

theorem minIndent?_le {ls : List Str} {m : Nat} (h : minIndent? ls = some m)
    {l : Str} (hl : l ∈ ls) (hb : isBlankU l = false) : m ≤ leadSp l := by
  unfold minIndent? at h
  apply minNat?_le h
  apply List.mem_map_of_mem
  rw [List.mem_filter]
  exact ⟨hl, by simp [hb]⟩

theorem minIndent?_attained {ls : List Str} {m : Nat} (h : minIndent? ls = some m) :
    ∃ l ∈ ls, isBlankU l = false ∧ leadSp l = m := by
  unfold minIndent? at h
  have hm := minNat?_mem h
  rw [List.mem_map] at hm
  obtain ⟨l, hl, hlm⟩ := hm
  rw [List.mem_filter] at hl
  exact ⟨l, hl.1, by simpa using hl.2, hlm⟩

theorem leadSp_le_length (l : Str) : leadSp l ≤ l.length := by
  have h : (l.takeWhile (fun c => c = ' ')).length + (l.dropWhile (fun c => c = ' ')).length
      = l.length := by
    rw [← List.length_append, List.takeWhile_append_dropWhile]
  unfold leadSp
  omega

theorem drop_append_of_le {α : Type} (l₁ l₂ : List α) (n : Nat) (h : n ≤ l₁.length) :
    (l₁ ++ l₂).drop n = l₁.drop n ++ l₂ := by
  rw [List.drop_append_eq_append_drop, Nat.sub_eq_zero_of_le h, List.drop_zero]

theorem mem_drop_of_leadSp {l : Str} {c : Char} (hc : c ∈ l) (hcne : ¬ c = ' ')
    {m : Nat} (hm : m ≤ leadSp l) : c ∈ l.drop m := by
  have hsplit := List.takeWhile_append_dropWhile (p := fun x => x = ' ') (l := l)
  have hcd : c ∈ l.dropWhile (fun x => x = ' ') := by
    rw [← hsplit] at hc
    rcases List.mem_append.mp hc with h | h
    · have := List.mem_takeWhile_imp h
      simp at this
      exact absurd this hcne
    · exact h
  have h1 : l.drop m =
      (l.takeWhile (fun x => x = ' ')).drop m ++ l.dropWhile (fun x => x = ' ') := by
    conv_lhs => rw [← hsplit]
    exact drop_append_of_le _ _ m hm
  rw [h1]
  exact List.mem_append_right _ hcd

theorem dropWhile_head_false (p : Char → Bool) :
    ∀ (l : Str) (c : Char) (t : Str), l.dropWhile p = c :: t → p c = false := by
  intro l
  induction l with
  | nil => intro c t h; simp [List.dropWhile] at h
  | cons a as ih =>
    intro c t h
    rw [List.dropWhile_cons] at h
    by_cases hp : p a
    · rw [if_pos hp] at h
      exact ih c t h
    · rw [if_neg hp] at h
      cases h
      simpa using hp

theorem drop_leadSp_eq (l : Str) : l.drop (leadSp l) = l.dropWhile (fun c => c = ' ') := by
  have h2 : l.drop (leadSp l) =
      ((l.takeWhile (fun c => c = ' ')) ++ l.dropWhile (fun c => c = ' ')).drop
        ((l.takeWhile (fun c => c = ' ')).length) := by
    rw [List.takeWhile_append_dropWhile]
    rfl
  rw [h2, List.drop_left]

theorem leadSp_drop_leadSp (l : Str) : leadSp (l.drop (leadSp l)) = 0 := by
  rw [drop_leadSp_eq]
  cases hd : l.dropWhile (fun c => c = ' ') with
  | nil => rfl
  | cons c t =>
    have := dropWhile_head_false _ l c t hd
    unfold leadSp
    rw [List.takeWhile_cons, if_neg (by simpa using this)]
    rfl

theorem isBlankU_drop_false {l : Str} (hb : isBlankU l = false) {m : Nat}
    (hm : m ≤ leadSp l) : isBlankU (l.drop m) = false := by
  have hwit : ∃ c ∈ l, ¬ spaceU c = true := by
    unfold isBlankU at hb
    rcases List.all_eq_false.mp hb with ⟨c, hc, hcb⟩
    exact ⟨c, hc, by simpa using hcb⟩
  obtain ⟨c, hc, hcs⟩ := hwit
  have hcne : ¬ c = ' ' := fun he => hcs (by rw [he]; rfl)
  have hmem := mem_drop_of_leadSp hc hcne hm
  unfold isBlankU
  rw [List.all_eq_false]
  exact ⟨c, hmem, by simpa using hcs⟩

theorem reWSb_imp_spaceU {c : Char} (h : reWSb c = true) : spaceU c = true := by
  unfold reWSb at h
  unfold spaceU
  simp only [Bool.or_eq_true, decide_eq_true_eq] at h ⊢
  tauto

theorem unindent_map_blankRe {ls : List Str} {m : Nat}
    (hmin : minIndent? ls = some m)
    (hH : ∀ l ∈ ls, ∀ c ∈ l, spaceU c = true → reWSb c = true) :
    ∀ l ∈ ls, isBlankRe (if m ≤ l.length then l.drop m else l) = isBlankRe l := by
  intro l hl
  by_cases hre : isBlankRe l
  · rw [hre]
    by_cases hm : m ≤ l.length
    · rw [if_pos hm]
      unfold isBlankRe at hre ⊢
      rw [List.all_eq_true] at hre ⊢
      intro c hc
      exact hre c (List.drop_subset _ _ hc)
    · rw [if_neg hm]
      exact hre
  · have hre' : isBlankRe l = false := by simpa using hre
    rw [hre']
    have hwit : ∃ c ∈ l, reWSb c = false := by
      unfold isBlankRe at hre'
      rcases List.all_eq_false.mp hre' with ⟨c, hc, hcb⟩
      exact ⟨c, hc, by simpa using hcb⟩
    obtain ⟨c, hc, hcws⟩ := hwit
    have hcsp : spaceU c = false := by
      by_contra hcc
      have h1 : spaceU c = true := by simpa using hcc
      have := hH l hl c hc h1
      rw [this] at hcws
      exact absurd hcws (by simp)
    have hbu : isBlankU l = false := by
      unfold isBlankU
      rw [List.all_eq_false]
      exact ⟨c, hc, by simp [hcsp]⟩
    have hml : m ≤ leadSp l := minIndent?_le hmin hl hbu
    have hmL : m ≤ l.length := le_trans hml (leadSp_le_length l)
    rw [if_pos hmL]
    have hcne : ¬ c = ' ' := by
      intro he
      rw [he] at hcsp
      exact absurd hcsp (by simp [spaceU])
    have hmem := mem_drop_of_leadSp hc hcne hml
    unfold isBlankRe
    rw [List.all_eq_false]
    exact ⟨c, hmem, by simp [hcws]⟩

theorem unindentLines_ne_nil {ls : List Str} (h : ls ≠ []) : unindentLines ls ≠ [] := by
  unfold unindentLines
  cases minIndent? ls with
  | none => exact h
  | some m => simpa using h

theorem unindentLines_no_nl {ls : List Str} (h : ∀ l ∈ ls, '\n' ∉ l) :
    ∀ x ∈ unindentLines ls, '\n' ∉ x := by
  intro x hx
  unfold unindentLines at hx
  cases hm : minIndent? ls with
  | none =>
    rw [hm] at hx
    exact h x hx
  | some m =>
    rw [hm] at hx
    rw [List.mem_map] at hx
    obtain ⟨y, hy, hxy⟩ := hx
    by_cases hml : m ≤ y.length
    · rw [if_pos hml] at hxy
      intro hmem
      exact h y hy (List.drop_subset _ _ (hxy ▸ hmem))
    · rw [if_neg hml] at hxy
      exact hxy ▸ h y hy

theorem unindentLines_eq_none {ls : List Str} (h : minIndent? ls = none) :
    unindentLines ls = ls := by
  unfold unindentLines
  simp only [h]

theorem unindentLines_eq_some {ls : List Str} {m : Nat} (h : minIndent? ls = some m) :
    unindentLines ls = ls.map (fun l => if m ≤ l.length then l.drop m else l) := by
  unfold unindentLines
  simp only [h]

theorem unindentLines_idem (ls : List Str) :
    unindentLines (unindentLines ls) = unindentLines ls := by
  cases h : minIndent? ls with
  | none =>
    rw [unindentLines_eq_none h, unindentLines_eq_none h]
  | some m =>
    have h1 : unindentLines ls = ls.map (fun l => if m ≤ l.length then l.drop m else l) :=
      unindentLines_eq_some h
    obtain ⟨l₀, hl₀, hb₀, hlead⟩ := minIndent?_attained h
    have hmL : m ≤ l₀.length := hlead ▸ leadSp_le_length l₀
    have hg : (if m ≤ l₀.length then l₀.drop m else l₀) = l₀.drop m := if_pos hmL
    have hlz : leadSp (l₀.drop m) = 0 := by
      rw [← hlead]
      exact leadSp_drop_leadSp l₀
    have hbz : isBlankU (l₀.drop m) = false :=
      isBlankU_drop_false hb₀ (hlead ▸ Nat.le_refl m)
    have hmem0 : (0 : Nat) ∈
        ((unindentLines ls).filter (fun l => !(isBlankU l))).map leadSp := by
      rw [← hlz]
      apply List.mem_map_of_mem
      rw [List.mem_filter]
      constructor
      · rw [h1, ← hg]
        exact List.mem_map_of_mem _ hl₀
      · simp [hbz]
    have hmin2 : minIndent? (unindentLines ls) = some 0 := by
      unfold minIndent?
      exact minNat?_of_mem_zero hmem0
    rw [unindentLines_eq_some hmin2]
    have hid : ∀ x ∈ unindentLines ls,
        (if 0 ≤ x.length then x.drop 0 else x) = x := by
      intro x _
      rw [if_pos (Nat.zero_le _), List.drop_zero]
    rw [List.map_congr_left hid]
    simp

theorem trimLines_unindentLines_fix {ls : List Str}
    (hH : ∀ l ∈ trimLines ls, ∀ c ∈ l, spaceU c = true → reWSb c = true) :
    trimLines (unindentLines (trimLines ls)) = unindentLines (trimLines ls) := by
  cases h : minIndent? (trimLines ls) with
  | none =>
    rw [unindentLines_eq_none h, trimLines_idem]
  | some m =>
    rw [unindentLines_eq_some h, trimLines_map _ _ (unindent_map_blankRe h hH),
      trimLines_idem]

theorem preprocess_lines (s : Str) :
    preprocessTemplate s = joinNl (unindentLines (trimLines (splitNl s))) := by
  unfold preprocessTemplate TrimTemplate
  rw [unindent_eq_spec]
  unfold unindentSpec
  rw [splitNl_joinNl (trimLines (splitNl s)) (trimLines_ne_nil _ (splitNl_ne_nil s))
    (fun l hl => splitNl_no_nl s l (mem_trimLines hl))]

/-- C8 counterexample: the vertical tab `\x0b` is Unicode whitespace (so
`Unindent` treats a `"\x0b\x0b"` line as blank and slices it to empty) but
not in the regexp `\s` class (so `TrimTemplate` does not strip that line):
for `"\x0b\x0b\n  a"` one preprocess pass yields `"\na"`, a second yields
`"a"` — preprocessing is not idempotent. -/
theorem c8_counterexample :
    preprocessTemplate (preprocessTemplate ("\x0b\x0b\n  a".toList)) ≠
      preprocessTemplate ("\x0b\x0b\n  a".toList) := by decide

/-- C8 (amended): preprocessing (strip leading/trailing blank lines, then
unindent) is idempotent for every template in which each Unicode-whitespace
character is also in the regexp `\s` class `[\t\n\f\r ]` — i.e. templates
free of `\x0b`, U+0085 and U+00A0; the claim fails without this proviso. -/
theorem c8_idempotence_amended (s : Str)
    (hH : ∀ c ∈ s, spaceU c = true → reWSb c = true) :
    preprocessTemplate (preprocessTemplate s) = preprocessTemplate s := by
  have hHC : ∀ l ∈ trimLines (splitNl s), ∀ c ∈ l, spaceU c = true → reWSb c = true :=
    fun l hl c hc => hH c (splitNl_chars s l (mem_trimLines hl) c hc)
  have hXne : unindentLines (trimLines (splitNl s)) ≠ [] :=
    unindentLines_ne_nil (trimLines_ne_nil _ (splitNl_ne_nil s))
  have hXnl : ∀ l ∈ unindentLines (trimLines (splitNl s)), '\n' ∉ l :=
    unindentLines_no_nl (fun l hl => splitNl_no_nl s l (mem_trimLines hl))
  conv_lhs => rw [preprocess_lines s]
  rw [preprocess_lines (joinNl (unindentLines (trimLines (splitNl s))))]
  rw [splitNl_joinNl _ hXne hXnl, trimLines_unindentLines_fix hHC, unindentLines_idem,
    preprocess_lines s]

theorem c8_idempotence_amended_witness :
    (∀ c ∈ ("  x\n   \n y".toList : Str), spaceU c = true → reWSb c = true) ∧
      preprocessTemplate (preprocessTemplate ("  x\n   \n y".toList)) =
        preprocessTemplate ("  x\n   \n y".toList) := by
  have h : ∀ c ∈ ("  x\n   \n y".toList : Str), spaceU c = true → reWSb c = true := by
    decide
  exact ⟨h, c8_idempotence_amended _ h⟩

end Helpa
